import Mathlib

/-!
Shallow embedding of the "shuodedaoli" stereographic little-planet projector.

Source files embedded:
* `src/main.rs` — `interpolation`, `bilinear_interpolation`,
  `stereographic_projection` (the per-pixel render driver);
* `src/projection.rs` — `Projection::{new, proj, image_to_sphere,
  sphere_to_image}`.

Modelling conventions:
* `f32` values that flow through arithmetic are embedded as exact numbers in a
  linear ordered field (`ℚ` for the sampling claims, which must be evaluated on
  concrete inputs; `ℝ` for the projection model, which uses `acos`, `atan2`
  and `sqrt`).  Rounding error of `f32` is not modelled; every concrete input
  used below keeps all intermediate values exactly representable.
* The two places where IEEE special values are observable in the source are
  modelled explicitly: the saturating `as u32` / `as u8` casts (NaN ↦ 0,
  negative ↦ 0, overflow ↦ max), and the division in `interpolation`, whose
  weight sum can be exactly `0` (f32 then yields `0/0 = NaN` or `±∞`; the
  `as u8` cast maps those to `0` / `255` / `0`).
-/

namespace LittlePlanet

/-- Colour triple `image::Rgb<u8>`: three 8-bit channels. -/
structure Rgb where
  r : Fin 256
  g : Fin 256
  b : Fin 256
deriving DecidableEq

/-- A source image: dimensions plus pixel accessor (`DynamicImage` with
`get_pixel`).  Pixels are total over `ℕ × ℕ`; the sampler only ever reads
indices below `width`/`height` (claim C6). -/
structure Image where
  width : ℕ
  height : ℕ
  pix : ℕ → ℕ → Rgb

/-- Index clamp of `bilinear_interpolation` (main.rs lines 33–34) on a finite
coordinate value: `(x.max(0.) as u32).min(wm1)`.  Rust's float-to-`u32` `as`
cast truncates toward zero (= floor, after `max 0`) and saturates at
`u32::MAX = 4294967295`. -/
def idxOf {K : Type} [LinearOrderedField K] [FloorRing K] (wm1 : ℕ) (x : K) : ℕ :=
  min (min (Int.toNat ⌊max x 0⌋) 4294967295) wm1

/-- An `f32` coordinate value as classified by the index clamp: finite (embedded
exactly as a rational), NaN, or an infinity. -/
inductive F32 where
  | fin : ℚ → F32
  | nan : F32
  | inf : F32
  | ninf : F32

/-- The index clamp on the full `f32` domain.  Rust `f32::max(NaN, 0.0) = 0.0`
and `f32::max(-∞, 0.0) = 0.0`, so both cases reduce to the finite clamp at `0`;
`+∞ as u32` saturates to `u32::MAX`.  On finite values this is exactly `idxOf`,
the function used by `bilinear_interpolation` below. -/
def clampIndex (wm1 : ℕ) : F32 → ℕ
  | .fin q => idxOf wm1 q
  | .nan => idxOf wm1 (0 : ℚ)
  | .ninf => idxOf wm1 (0 : ℚ)
  | .inf => min 4294967295 wm1

/-- Rust `f as u8` on a finite value: truncate toward zero, saturating to
`[0, 255]`. -/
def castU8 {K : Type} [LinearOrderedField K] [FloorRing K] (q : K) : Fin 256 :=
  if q < 0 then 0 else ⟨min (Int.toNat ⌊q⌋) 255, by omega⟩

/-- One channel of `interpolation` (main.rs lines 24–29):
`(q1*w1 + q2*w2)/(w1+w2)` followed by `as u8`.  The source has no guard for a
zero weight sum: there f32 produces `0/0 = NaN` (cast to `0`) or `±∞` (cast to
`255` / `0`), which is modelled by the first branch. -/
def interpChannel {K : Type} [LinearOrderedField K] [FloorRing K]
    (c1 : Fin 256) (w1 : K) (c2 : Fin 256) (w2 : K) : Fin 256 :=
  let num : K := ((c1 : ℕ) : K) * w1 + ((c2 : ℕ) : K) * w2
  if w1 + w2 = 0 then (if num = 0 then 0 else if 0 < num then 255 else 0)
  else castU8 (num / (w1 + w2))

/-- `interpolation` (main.rs lines 24–29), channel-wise over the colour
triple. -/
def interpolation {K : Type} [LinearOrderedField K] [FloorRing K]
    (q1 : Rgb) (w1 : K) (q2 : Rgb) (w2 : K) : Rgb :=
  ⟨interpChannel q1.r w1 q2.r w2, interpChannel q1.g w1 q2.g w2,
    interpChannel q1.b w1 q2.b w2⟩

/-- `bilinear_interpolation` (main.rs lines 31–46). -/
def bilinear_interpolation {K : Type} [LinearOrderedField K] [FloorRing K]
    (img : Image) (x y : K) : Rgb :=
  let x1 := idxOf (img.width - 1) x
  let y1 := idxOf (img.height - 1) y
  let x2 := min (x1 + 1) (img.width - 1)
  let y2 := min (y1 + 1) (img.height - 1)
  let q11 := img.pix x1 y1
  let q21 := img.pix x2 y1
  let q12 := img.pix x1 y2
  let q22 := img.pix x2 y2
  let r1 := interpolation q11 ((x2 : K) - x) q21 (x - (x1 : K))
  let r2 := interpolation q12 ((x2 : K) - x) q22 (x - (x1 : K))
  interpolation r1 ((y2 : K) - y) r2 (y - (y1 : K))

section EvalLemmas

variable {K : Type} [LinearOrderedField K] [FloorRing K]

lemma idxOf_le (wm1 : ℕ) (x : K) : idxOf wm1 x ≤ wm1 :=
  min_le_right _ _

lemma idxOf_natCast (wm1 n : ℕ) :
    idxOf wm1 ((n : K)) = min (min n 4294967295) wm1 := by
  unfold idxOf
  rw [max_eq_left (Nat.cast_nonneg n), Int.floor_natCast, Int.toNat_natCast]

lemma idxOf_nat_of_le (wm1 n : ℕ) (h1 : n ≤ wm1) (h2 : wm1 ≤ 4294967295) :
    idxOf wm1 ((n : K)) = n := by
  rw [idxOf_natCast]
  omega

lemma idxOf_zero (wm1 : ℕ) : idxOf wm1 (0 : K) = 0 := by
  simpa using idxOf_natCast (K := K) wm1 0

lemma idxOf_one (wm1 : ℕ) : idxOf wm1 (1 : K) = min 1 wm1 := by
  simpa using idxOf_natCast (K := K) wm1 1

lemma idxOf_nonpos (wm1 : ℕ) (x : K) (hx : x ≤ 0) : idxOf wm1 x = 0 := by
  unfold idxOf
  rw [max_eq_right hx, Int.floor_zero]
  simp

lemma castU8_natCast (n : ℕ) :
    castU8 ((n : K)) = ⟨min n 255, by omega⟩ := by
  unfold castU8
  rw [if_neg (not_lt.2 (Nat.cast_nonneg n))]
  exact Fin.ext (by simp)

lemma castU8_zero : castU8 (0 : K) = 0 := by
  simpa using castU8_natCast (K := K) 0

lemma interpChannel_one_zero (c1 c2 : Fin 256) :
    interpChannel c1 (1 : K) c2 0 = c1 := by
  unfold interpChannel
  rw [if_neg (by norm_num : ¬((1 : K) + 0 = 0))]
  have h : (((c1 : ℕ) : K) * 1 + ((c2 : ℕ) : K) * 0) / (1 + 0) = ((c1 : ℕ) : K) := by
    ring
  rw [h, castU8_natCast]
  exact Fin.ext (by simpa using Nat.le_of_lt_succ c1.isLt)

lemma interpChannel_zero_zero (c1 c2 : Fin 256) :
    interpChannel c1 (0 : K) c2 0 = 0 := by
  unfold interpChannel
  rw [if_pos (by norm_num)]
  rw [if_pos (by ring)]

lemma interpChannel_black (w1 w2 : K) :
    interpChannel (0 : Fin 256) w1 (0 : Fin 256) w2 = 0 := by
  unfold interpChannel
  have h : (((0 : Fin 256) : ℕ) : K) * w1 + (((0 : Fin 256) : ℕ) : K) * w2 = 0 := by
    simp
  by_cases hd : w1 + w2 = 0
  · rw [if_pos hd, if_pos h]
  · rw [if_neg hd, h, zero_div, castU8_zero]

lemma interpolation_one_zero (q1 q2 : Rgb) :
    interpolation q1 (1 : K) q2 0 = q1 := by
  unfold interpolation
  rw [interpChannel_one_zero, interpChannel_one_zero, interpChannel_one_zero]

lemma interpolation_zero_zero (q1 q2 : Rgb) :
    interpolation q1 (0 : K) q2 0 = ⟨0, 0, 0⟩ := by
  unfold interpolation
  rw [interpChannel_zero_zero, interpChannel_zero_zero, interpChannel_zero_zero]

lemma interpolation_black (w1 w2 : K) :
    interpolation (⟨0, 0, 0⟩ : Rgb) w1 (⟨0, 0, 0⟩ : Rgb) w2 = ⟨0, 0, 0⟩ := by
  unfold interpolation
  rw [interpChannel_black]

end EvalLemmas

/-! ## The projection model (`src/projection.rs`), over `ℝ` -/

/-- A 2-vector of `f32` (nalgebra `Vec2f`), embedded over `ℝ`. -/
structure Vec2 where
  x : ℝ
  y : ℝ

/-- A 3-vector of `f32` (nalgebra `Vec3f`), embedded over `ℝ`. -/
structure Vec3 where
  x : ℝ
  y : ℝ
  z : ℝ

/-- A 3-D rotation (nalgebra `Rotation3<f32>`), embedded as its 3×3 matrix of
entries; applied to a vector by the usual matrix–vector product. -/
def Rot : Type := Fin 3 → Fin 3 → ℝ

/-- Matrix–vector application of a rotation (`self.rotation * p`). -/
def rotApply (R : Rot) (v : Vec3) : Vec3 :=
  ⟨R 0 0 * v.x + R 0 1 * v.y + R 0 2 * v.z,
    R 1 0 * v.x + R 1 1 * v.y + R 1 2 * v.z,
    R 2 0 * v.x + R 2 1 * v.y + R 2 2 * v.z⟩

/-- The identity rotation. -/
def idRot : Rot := fun i j => if i = j then 1 else 0

/-- `self.atan2(other)` of Rust / nalgebra on finite values: the standard
four-quadrant arctangent, with `atan2(0, 0) = 0` as in IEEE-754
(`atan2(±0, +0) = ±0`). -/
noncomputable def atan2 (y x : ℝ) : ℝ :=
  if 0 < x then Real.arctan (y / x)
  else if x < 0 then
    (if 0 ≤ y then Real.arctan (y / x) + Real.pi else Real.arctan (y / x) - Real.pi)
  else (if 0 < y then Real.pi / 2 else if y < 0 then -(Real.pi / 2) else 0)

/-- `norm_squared` of a 3-vector. -/
def normSq (v : Vec3) : ℝ := v.x ^ 2 + v.y ^ 2 + v.z ^ 2

/-- nalgebra `Unit::new_normalize`: divide by the Euclidean norm. -/
noncomputable def normalize (v : Vec3) : Vec3 :=
  ⟨v.x / Real.sqrt (normSq v), v.y / Real.sqrt (normSq v), v.z / Real.sqrt (normSq v)⟩

/-- nalgebra `Unit::renormalize_fast`: first-order Taylor renormalization,
`v *= (3 − ‖v‖²) / 2`. -/
noncomputable def renormalizeFast (v : Vec3) : Vec3 :=
  ⟨(3 - normSq v) / 2 * v.x, (3 - normSq v) / 2 * v.y, (3 - normSq v) / 2 * v.z⟩

/-- The `Projection` struct (projection.rs lines 9–15). -/
structure Projection where
  radius : ℝ
  image_size : Vec2
  proj_size : Vec2
  offset : Vec2
  rotation : Rot

/-- `Projection::new` (projection.rs lines 18–35).  `image_size` and
`proj_size` arrive as `u32` pairs and are cast to floats; `radius` is
`proj_size.min() / 10. * scale` (the float min of the two casts equals the
cast of the `ℕ` min). -/
noncomputable def Projection.new (image_size proj_size : ℕ × ℕ) (offset : Vec2)
    (rotation : Rot) (scale : ℝ) : Projection :=
  { radius := ((min proj_size.1 proj_size.2 : ℕ) : ℝ) / 10 * scale
    image_size := ⟨image_size.1, image_size.2⟩
    proj_size := ⟨proj_size.1, proj_size.2⟩
    offset := offset
    rotation := rotation }

/-- `Projection::image_to_sphere` (projection.rs lines 44–49). -/
noncomputable def Projection.image_to_sphere (m : Projection) (p : Vec2) : Vec3 :=
  let r2 := m.radius ^ 2
  let k := 2 * r2 / (p.x ^ 2 + p.y ^ 2 + r2)
  normalize ⟨k * p.x, k * p.y, (k - 1) * m.radius⟩

/-- `Projection::sphere_to_image` (projection.rs lines 51–57). -/
noncomputable def Projection.sphere_to_image (m : Projection) (v : Vec3) : Vec2 :=
  let w := renormalizeFast v
  let row := Real.arccos w.z / Real.pi
  let col := atan2 w.x w.y / (2 * Real.pi) + 1 / 2
  ⟨col * m.image_size.x, row * m.image_size.y⟩

/-- `Projection::proj` (projection.rs lines 37–42). -/
noncomputable def Projection.proj (m : Projection) (p : Vec2) : Vec2 :=
  let p1 : Vec2 :=
    ⟨p.x + (m.offset.x - 1 / 2) * m.proj_size.x, p.y + (m.offset.y - 1 / 2) * m.proj_size.y⟩
  let s := m.image_to_sphere p1
  let r := rotApply m.rotation s
  m.sphere_to_image r

/-- The projection pipeline exactly as the specification words it, in four
steps: (1) recenter by `(offset − 0.5) ⊙ canvas_size`; (2) inverse
stereographic map to the unit sphere with `r2 = radius²`,
`k = 2·r2/(|p′|² + r2)`; (3) rotate and renormalize; (4) equirectangular
coordinates `(atan2(v.x, v.y)/(2π) + 0.5, acos(v.z)/π)` scaled by
`image_size`. -/
noncomputable def projSpec (m : Projection) (p : Vec2) : Vec2 :=
  let p1 : Vec2 :=
    ⟨p.x + (m.offset.x - 1 / 2) * m.proj_size.x, p.y + (m.offset.y - 1 / 2) * m.proj_size.y⟩
  let r2 := m.radius ^ 2
  let k := 2 * r2 / (p1.x ^ 2 + p1.y ^ 2 + r2)
  let u := normalize ⟨k * p1.x, k * p1.y, (k - 1) * m.radius⟩
  let v := renormalizeFast (rotApply m.rotation u)
  ⟨(atan2 v.x v.y / (2 * Real.pi) + 1 / 2) * m.image_size.x,
    (Real.arccos v.z / Real.pi) * m.image_size.y⟩

/-- The per-pixel body of `stereographic_projection` (main.rs lines 48–55):
the colour written at output pixel `q` is the bilinear sample of the source at
the projected coordinate — a pure function of `q`, the image and the model. -/
noncomputable def pixelColor (img : Image) (m : Projection) (q : ℕ × ℕ) : Rgb :=
  bilinear_interpolation img (m.proj ⟨q.1, q.2⟩).x (m.proj ⟨q.1, q.2⟩).y

/-- `stereographic_projection` with the (rayon) scheduling order made
explicit: the canvas is a map from pixel coordinates to colours, and the
pixels listed in `order` are filled one by one.  Because each write stores
`pixelColor` of its own coordinate, the result is independent of `order` up
to permutation (claim C9). -/
noncomputable def stereographic_projection (img : Image) (m : Projection)
    (canvas : ℕ × ℕ → Rgb) (order : List (ℕ × ℕ)) : ℕ × ℕ → Rgb :=
  order.foldl (fun c q => fun q2 => if q2 = q then pixelColor img m q else c q2) canvas

/-! ## Shared lemmas about the projection model -/

lemma rotApply_id (v : Vec3) : rotApply idRot v = v := by
  cases v
  simp [rotApply, idRot]

lemma clampIndex_le (wm1 : ℕ) (t : F32) : clampIndex wm1 t ≤ wm1 := by
  cases t
  · exact idxOf_le _ _
  · exact idxOf_le _ _
  · exact min_le_right _ _
  · exact idxOf_le _ _

/-! ## Claim theorems -/

/-- C2: `Projection::proj` is exactly the composition of the four specified
steps — recentering by `(offset − 0.5) ⊙ canvas_size`, inverse stereographic
mapping with `k = 2·r2/(|p′|² + r2)`, rotation followed by renormalization,
and the equirectangular conversion `(atan2(v.x, v.y)/(2π) + 0.5, acos(v.z)/π)`
scaled by `image_size`. -/
theorem proj_eq_projSpec (m : Projection) (p : Vec2) : m.proj p = projSpec m p := rfl

/-- C5 counterexample: constructing a model with a zero-size source image and
a zero-size canvas does not fail and yields an ordinary `Projection` value
(with radius 0); `Projection::new` has no error path, contradicting the
claimed fail-fast configuration error. -/
theorem projection_new_zero_dims_returns_model :
    Projection.new (0, 0) (0, 0) ⟨0, 0⟩ idRot 1 =
      { radius := 0, image_size := ⟨0, 0⟩, proj_size := ⟨0, 0⟩,
        offset := ⟨0, 0⟩, rotation := idRot } := by
  norm_num [Projection.new]

/-- C5 amended: model construction never fails.  For every input — including
zero-size images and canvases — `Projection::new` unconditionally returns the
model with `radius = min(canvas_w, canvas_h)/10·scale` and the given fields;
no typed configuration error exists in the core. -/
theorem projection_new_total (isz csz : ℕ × ℕ) (off : Vec2) (R : Rot) (s : ℝ) :
    Projection.new isz csz off R s =
      { radius := ((min csz.1 csz.2 : ℕ) : ℝ) / 10 * s,
        image_size := ⟨isz.1, isz.2⟩, proj_size := ⟨csz.1, csz.2⟩,
        offset := off, rotation := R } := rfl

/-- C7: the constructed model stores
`radius = min(canvas_w, canvas_h) / 10 * scale`, and this is strictly positive
whenever `scale > 0` and both canvas dimensions are at least 1. -/
theorem radius_formula_and_pos (isz csz : ℕ × ℕ) (off : Vec2) (R : Rot) (s : ℝ)
    (hs : 0 < s) (h1 : 1 ≤ csz.1) (h2 : 1 ≤ csz.2) :
    (Projection.new isz csz off R s).radius = ((min csz.1 csz.2 : ℕ) : ℝ) / 10 * s ∧
      0 < (Projection.new isz csz off R s).radius := by
  refine ⟨rfl, ?_⟩
  have hmin : (1 : ℝ) ≤ ((min csz.1 csz.2 : ℕ) : ℝ) := by
    exact_mod_cast le_min h1 h2
  have h0 : (0 : ℝ) < ((min csz.1 csz.2 : ℕ) : ℝ) / 10 := by linarith
  exact mul_pos h0 hs

/-- C7 witness: a 600×600 canvas with scale 3/2. -/
theorem radius_formula_and_pos_witness :
    (0 : ℝ) < 3 / 2 ∧
      ((Projection.new (4, 4) (600, 600) ⟨0, 0⟩ idRot (3 / 2)).radius =
          ((min 600 600 : ℕ) : ℝ) / 10 * (3 / 2) ∧
        0 < (Projection.new (4, 4) (600, 600) ⟨0, 0⟩ idRot (3 / 2)).radius) :=
  ⟨by norm_num,
    radius_formula_and_pos (4, 4) (600, 600) ⟨0, 0⟩ idRot (3 / 2) (by norm_num)
      (by norm_num) (by norm_num)⟩

/-- C6: for every image with positive dimensions and every `f32` coordinate
pair — finite of any magnitude and sign, NaN, or infinite — the four clamped
indices computed by `bilinear_interpolation` (`x1`, `x2 = min(x1+1, W−1)`,
`y1`, `y2 = min(y1+1, H−1)`) all lie inside the valid pixel rectangle, so
every pixel fetch is in bounds and per-pixel sampling has no failure path. -/
theorem sample_indices_in_bounds (W H : ℕ) (hW : 1 ≤ W) (hH : 1 ≤ H) (x y : F32) :
    clampIndex (W - 1) x < W ∧ min (clampIndex (W - 1) x + 1) (W - 1) < W ∧
      clampIndex (H - 1) y < H ∧ min (clampIndex (H - 1) y + 1) (H - 1) < H := by
  have hx := clampIndex_le (W - 1) x
  have hy := clampIndex_le (H - 1) y
  omega

/-- C6 witness: a 3×2 image sampled at the coordinate pair (NaN, +∞). -/
theorem sample_indices_in_bounds_witness :
    clampIndex (3 - 1) F32.nan < 3 ∧ min (clampIndex (3 - 1) F32.nan + 1) (3 - 1) < 3 ∧
      clampIndex (2 - 1) F32.inf < 2 ∧ min (clampIndex (2 - 1) F32.inf + 1) (2 - 1) < 2 :=
  sample_indices_in_bounds 3 2 (by norm_num) (by norm_num) F32.nan F32.inf

lemma stereo_foldl_char (img : Image) (m : Projection) (canvas : ℕ × ℕ → Rgb)
    (L : List (ℕ × ℕ)) (q : ℕ × ℕ) :
    stereographic_projection img m canvas L q =
      if q ∈ L then pixelColor img m q else canvas q := by
  induction L generalizing canvas with
  | nil => simp [stereographic_projection]
  | cons a L ih =>
    show stereographic_projection img m _ L q = _
    rw [ih]
    by_cases hq : q ∈ L
    · simp [hq]
    · by_cases hqa : q = a
      · simp [hq, hqa]
      · simp [hq, hqa]

/-- C9: rendering is deterministic and scheduling-insensitive.  Each output
pixel's colour is the pure function `pixelColor` of its own coordinate, the
source image and the model, so filling the canvas along any two pixel
schedules that are permutations of one another yields identical canvases. -/
theorem render_perm_invariant (img : Image) (m : Projection) (canvas : ℕ × ℕ → Rgb)
    (L1 L2 : List (ℕ × ℕ)) (h : L1.Perm L2) :
    stereographic_projection img m canvas L1 = stereographic_projection img m canvas L2 := by
  funext q
  rw [stereo_foldl_char, stereo_foldl_char]
  simp only [h.mem_iff]

/-- Concrete 1×1 black source image for the C9 witness. -/
def imgC9 : Image := ⟨1, 1, fun _ _ => ⟨0, 0, 0⟩⟩

/-- Concrete model for the C9 witness. -/
noncomputable def modelC9 : Projection := Projection.new (1, 1) (2, 2) ⟨0, 0⟩ idRot 1

/-- C9 witness: two schedules of the same two pixels in opposite order. -/
theorem render_perm_invariant_witness :
    List.Perm [((0 : ℕ), (0 : ℕ)), (1, 1)] [(1, 1), (0, 0)] ∧
      stereographic_projection imgC9 modelC9 (fun _ => ⟨0, 0, 0⟩) [((0 : ℕ), (0 : ℕ)), (1, 1)] =
        stereographic_projection imgC9 modelC9 (fun _ => ⟨0, 0, 0⟩) [(1, 1), (0, 0)] :=
  ⟨by decide, render_perm_invariant imgC9 modelC9 (fun _ => ⟨0, 0, 0⟩) _ _ (by decide)⟩

/-- C4 amended: bilinear sampling at an integer coordinate strictly inside the
image (not on the last column or last row) returns exactly that source pixel.
The `u32` image dimensions bound the saturating cast. -/
theorem bilinear_integer_idempotent_interior {K : Type} [LinearOrderedField K]
    [FloorRing K] (img : Image) (x y : ℕ)
    (h32W : img.width ≤ 4294967296) (h32H : img.height ≤ 4294967296)
    (hx : x + 1 < img.width) (hy : y + 1 < img.height) :
    bilinear_interpolation img ((x : K)) ((y : K)) = img.pix x y := by
  show interpolation _ _ _ _ = _
  rw [idxOf_nat_of_le (img.width - 1) x (by omega) (by omega),
    idxOf_nat_of_le (img.height - 1) y (by omega) (by omega),
    show min (x + 1) (img.width - 1) = x + 1 by omega,
    show min (y + 1) (img.height - 1) = y + 1 by omega,
    show (((x + 1 : ℕ)) : K) - (x : K) = 1 by push_cast; ring,
    show ((x : K)) - (x : K) = 0 by ring,
    show (((y + 1 : ℕ)) : K) - (y : K) = 1 by push_cast; ring,
    show ((y : K)) - (y : K) = 0 by ring,
    interpolation_one_zero, interpolation_one_zero]

/-- Concrete 1×1 white source image for the C4 counterexample. -/
def imgC4 : Image := ⟨1, 1, fun _ _ => ⟨255, 255, 255⟩⟩

/-- C4 counterexample: on a 1×1 all-white image, sampling at the in-range
integer coordinate (0, 0) — which lies on the last column and last row — does
not return the source pixel: the degenerate weights produce `0/0 = NaN` per
channel and the `as u8` cast turns that into black. -/
theorem bilinear_integer_idempotence_fails_at_edge :
    bilinear_interpolation imgC4 ((0 : ℚ)) ((0 : ℚ)) = ⟨0, 0, 0⟩ ∧
      imgC4.pix 0 0 = ⟨255, 255, 255⟩ ∧
      bilinear_interpolation imgC4 ((0 : ℚ)) ((0 : ℚ)) ≠ imgC4.pix 0 0 := by
  have heval : bilinear_interpolation imgC4 ((0 : ℚ)) ((0 : ℚ)) = ⟨0, 0, 0⟩ := by
    show interpolation _ _ _ _ = _
    rw [show imgC4.width - 1 = 0 from rfl, show imgC4.height - 1 = 0 from rfl, idxOf_zero]
    norm_num
    rw [interpolation_zero_zero]
  refine ⟨heval, rfl, ?_⟩
  rw [heval]
  decide

/-- C4 witness (for the amended theorem): a 3×3 image whose pixel (1, 1) is
a distinctive colour, sampled at the interior integer coordinate (1, 1). -/
def imgC4w : Image :=
  ⟨3, 3, fun i j => if i = 1 ∧ j = 1 then ⟨17, 23, 91⟩ else ⟨200, 0, 50⟩⟩

/-- C4 witness: the amended theorem applied at the interior pixel (1, 1). -/
theorem bilinear_integer_idempotent_interior_witness :
    (1 : ℕ) + 1 < imgC4w.width ∧
      bilinear_interpolation imgC4w ((1 : ℕ) : ℚ) ((1 : ℕ) : ℚ) = imgC4w.pix 1 1 :=
  ⟨by norm_num [imgC4w],
    bilinear_integer_idempotent_interior imgC4w 1 1 (by norm_num [imgC4w])
      (by norm_num [imgC4w]) (by norm_num [imgC4w]) (by norm_num [imgC4w])⟩

/-- Concrete 2×2 all-red source image for C1. -/
def imgC1 : Image := ⟨2, 2, fun _ _ => ⟨255, 0, 0⟩⟩

/-- C1: sampling a 2×2 all-red image exactly at its last valid column
(`x = W − 1 = 1`, `y = 0` interior) hits the unguarded degenerate case: both
horizontal weights are `w1 = w2 = 0`, f32 evaluates `0/0 = NaN` per channel,
and the `as u8` cast maps NaN to 0 — the sample is black, not the edge
pixel's red, and no `w1 + w2 == 0` special case exists in the code. -/
theorem bilinear_last_column_black :
    bilinear_interpolation imgC1 ((1 : ℚ)) ((0 : ℚ)) = ⟨0, 0, 0⟩ ∧
      imgC1.pix 1 0 = ⟨255, 0, 0⟩ := by
  constructor
  · show interpolation _ _ _ _ = _
    rw [show imgC1.width - 1 = 1 from rfl, show imgC1.height - 1 = 1 from rfl]
    rw [idxOf_one, idxOf_zero]
    norm_num
    rw [interpolation_zero_zero, interpolation_zero_zero, interpolation_one_zero]
  · rfl

/-- Concrete 2×2 source image for C3: left column grey (100), right column
black. -/
def imgC3 : Image := ⟨2, 2, fun i _ => if i = 0 then ⟨100, 100, 100⟩ else ⟨0, 0, 0⟩⟩

/-- C3: sampling beyond the left edge is *not* the same as sampling the
nearest edge pixel.  At `x = −5` the indices clamp to columns 0 and 1 but the
weights stay unclamped (`w1 = 6`, `w2 = −5`), so the blend extrapolates:
`(100·6 + 0·(−5))/1 = 600`, saturated to 255 — while sampling at the nearest
edge pixel `x = 0` returns its colour 100. -/
theorem bilinear_out_of_range_not_edge :
    bilinear_interpolation imgC3 ((-5 : ℚ)) ((0 : ℚ)) = ⟨255, 255, 255⟩ ∧
      bilinear_interpolation imgC3 ((0 : ℚ)) ((0 : ℚ)) = ⟨100, 100, 100⟩ ∧
      imgC3.pix 0 0 = ⟨100, 100, 100⟩ := by
  have hch : interpChannel (K := ℚ) (100 : Fin 256) 6 (0 : Fin 256) (-5) = (255 : Fin 256) := by
    simp only [interpChannel]
    rw [if_neg (by norm_num : ¬((6 : ℚ) + -5 = 0))]
    rw [show (((100 : Fin 256) : ℕ) : ℚ) * 6 + (((0 : Fin 256) : ℕ) : ℚ) * (-5) =
        ((600 : ℕ) : ℚ) by
      norm_num [show ((100 : Fin 256) : ℕ) = 100 from rfl, show ((0 : Fin 256) : ℕ) = 0 from rfl]]
    rw [show (6 : ℚ) + -5 = 1 by norm_num, div_one, castU8_natCast]
    decide
  have hinterp : interpolation (K := ℚ) ⟨100, 100, 100⟩ 6 ⟨0, 0, 0⟩ (-5) = ⟨255, 255, 255⟩ := by
    simp only [interpolation]
    rw [hch]
  refine ⟨?_, ?_, rfl⟩
  · show interpolation _ _ _ _ = _
    rw [show imgC3.width - 1 = 1 from rfl, show imgC3.height - 1 = 1 from rfl]
    rw [idxOf_nonpos 1 (-5 : ℚ) (by norm_num), idxOf_zero]
    norm_num [imgC3]
    rw [hinterp, interpolation_one_zero]
  · show interpolation _ _ _ _ = _
    rw [show imgC3.width - 1 = 1 from rfl, show imgC3.height - 1 = 1 from rfl, idxOf_zero]
    norm_num [imgC3]
    rw [interpolation_one_zero, interpolation_one_zero]

lemma atan2_bounds (y x : ℝ) : -Real.pi ≤ atan2 y x ∧ atan2 y x ≤ Real.pi := by
  have hpi := Real.pi_pos
  unfold atan2
  by_cases h1 : 0 < x
  · rw [if_pos h1]
    have ha := Real.arctan_lt_pi_div_two (y / x)
    have hb := Real.neg_pi_div_two_lt_arctan (y / x)
    constructor <;> linarith
  · rw [if_neg h1]
    by_cases h2 : x < 0
    · rw [if_pos h2]
      by_cases h3 : 0 ≤ y
      · rw [if_pos h3]
        have hyx : y / x ≤ 0 := div_nonpos_iff.mpr (Or.inl ⟨h3, h2.le⟩)
        have ha : Real.arctan (y / x) ≤ 0 :=
          (Real.arctan_strictMono.monotone hyx).trans_eq Real.arctan_zero
        have hb := Real.neg_pi_div_two_lt_arctan (y / x)
        constructor <;> linarith
      · rw [if_neg h3]
        have hyx : 0 < y / x := div_pos_of_neg_of_neg (lt_of_not_ge h3) h2
        have ha : 0 ≤ Real.arctan (y / x) :=
          Real.arctan_zero ▸ Real.arctan_strictMono.monotone hyx.le
        have hb := Real.arctan_lt_pi_div_two (y / x)
        constructor <;> linarith
    · rw [if_neg h2]
      by_cases h3 : 0 < y
      · rw [if_pos h3]
        constructor <;> linarith
      · rw [if_neg h3]
        by_cases h4 : y < 0
        · rw [if_pos h4]
          constructor <;> linarith
        · rw [if_neg h4]
          constructor <;> linarith

lemma atan2_diag_pos (u : ℝ) (hu : 0 < u) : atan2 u u = Real.pi / 4 := by
  unfold atan2
  rw [if_pos hu, div_self (ne_of_gt hu), Real.arctan_one]

lemma normSq_normalize (v : Vec3) (h : 0 < normSq v) : normSq (normalize v) = 1 := by
  have hsq : Real.sqrt (normSq v) ^ 2 = normSq v := Real.sq_sqrt h.le
  have hne : Real.sqrt (normSq v) ≠ 0 := ne_of_gt (Real.sqrt_pos.2 h)
  simp only [normalize, normSq] at *
  field_simp

lemma renormalizeFast_unit (v : Vec3) (h : normSq v = 1) : renormalizeFast v = v := by
  cases v
  simp only [renormalizeFast, h]
  norm_num

lemma sphere_to_image_x_diag (m : Projection) (v : Vec3) (hvx : v.x = v.y)
    (hv : 0 < v.x) (h1 : normSq v = 1) :
    (m.sphere_to_image v).x = 5 / 8 * m.image_size.x := by
  simp only [Projection.sphere_to_image]
  rw [renormalizeFast_unit v h1, ← hvx, atan2_diag_pos v.x hv]
  have hpine := Real.pi_ne_zero
  have hcol : Real.pi / 4 / (2 * Real.pi) + 1 / 2 = (5 : ℝ) / 8 := by
    rw [div_div, div_add_div _ _ (by positivity) (by norm_num : (2:ℝ) ≠ 0)]
    rw [div_eq_iff (by positivity : (4 * (2 * Real.pi)) * 2 ≠ 0)]
    ring
  rw [hcol]

lemma image_to_sphere_diag_unit (m : Projection) (t : ℝ) (ht : 0 < t)
    (hr : 0 < m.radius) :
    normSq (m.image_to_sphere ⟨t, t⟩) = 1 ∧
      (m.image_to_sphere ⟨t, t⟩).x = (m.image_to_sphere ⟨t, t⟩).y ∧
      0 < (m.image_to_sphere ⟨t, t⟩).x := by
  have hden : (0 : ℝ) < t ^ 2 + t ^ 2 + m.radius ^ 2 := by positivity
  have hk : 0 < 2 * m.radius ^ 2 / (t ^ 2 + t ^ 2 + m.radius ^ 2) :=
    div_pos (by nlinarith) hden
  have ha : 0 < 2 * m.radius ^ 2 / (t ^ 2 + t ^ 2 + m.radius ^ 2) * t := mul_pos hk ht
  have hS : 0 < normSq
      ⟨2 * m.radius ^ 2 / (t ^ 2 + t ^ 2 + m.radius ^ 2) * t,
        2 * m.radius ^ 2 / (t ^ 2 + t ^ 2 + m.radius ^ 2) * t,
        (2 * m.radius ^ 2 / (t ^ 2 + t ^ 2 + m.radius ^ 2) - 1) * m.radius⟩ := by
    simp only [normSq]
    nlinarith [sq_nonneg ((2 * m.radius ^ 2 / (t ^ 2 + t ^ 2 + m.radius ^ 2) - 1) * m.radius)]
  refine ⟨normSq_normalize _ hS, rfl, ?_⟩
  exact div_pos ha (Real.sqrt_pos.2 hS)

lemma proj_x_of_diag_recenter (m : Projection) (p : Vec2) (t : ℝ)
    (hrot : m.rotation = idRot) (hr : 0 < m.radius) (ht : 0 < t)
    (hx : p.x + (m.offset.x - 1 / 2) * m.proj_size.x = t)
    (hy : p.y + (m.offset.y - 1 / 2) * m.proj_size.y = t) :
    (m.proj p).x = 5 / 8 * m.image_size.x := by
  have hveq : (⟨p.x + (m.offset.x - 1 / 2) * m.proj_size.x,
      p.y + (m.offset.y - 1 / 2) * m.proj_size.y⟩ : Vec2) = ⟨t, t⟩ := by
    rw [Vec2.mk.injEq]
    exact ⟨hx, hy⟩
  show (m.sphere_to_image (rotApply m.rotation (m.image_to_sphere _))).x = _
  rw [hveq, hrot, rotApply_id]
  obtain ⟨h1, h2, h3⟩ := image_to_sphere_diag_unit m t ht hr
  exact sphere_to_image_x_diag m _ h2 h3 h1

/-- C8 counterexample: with the claim's parameters — source 100×100, square
600×600 canvas, offset `(0.5, 0.5)`, identity rotation, scale 1 — projecting
the canvas centre pixel (300, 300) yields source x-coordinate 62.5, which is
12.5 (an eighth of the image width) away from the image centre's x-coordinate
50: not "near the source image centre" under any small tolerance. -/
theorem center_proj_offset_half_not_center :
    ((Projection.new (100, 100) (600, 600) ⟨1 / 2, 1 / 2⟩ idRot 1).proj
        ⟨300, 300⟩).x = 125 / 2 ∧
      (10 : ℝ) ≤ |125 / 2 - (100 : ℝ) / 2| := by
  constructor
  · have h := proj_x_of_diag_recenter
      (Projection.new (100, 100) (600, 600) ⟨1 / 2, 1 / 2⟩ idRot 1) ⟨300, 300⟩ 300
      rfl (by show (0 : ℝ) < ((min 600 600 : ℕ) : ℝ) / 10 * 1; norm_num) (by norm_num)
      (by show (300 : ℝ) + ((1 : ℝ) / 2 - 1 / 2) * ((600 : ℕ) : ℝ) = 300; norm_num)
      (by show (300 : ℝ) + ((1 : ℝ) / 2 - 1 / 2) * ((600 : ℕ) : ℝ) = 300; norm_num)
    rw [h]
    show (5 : ℝ) / 8 * ((100 : ℕ) : ℝ) = 125 / 2
    norm_num
  · rw [abs_of_nonneg (by norm_num : (0 : ℝ) ≤ 125 / 2 - (100 : ℝ) / 2)]
    norm_num

/-- C8 amended: with rotation = identity, offset `(0.5, 0.5)` and a square
canvas, projecting the canvas centre pixel yields a source coordinate whose
x-component is exactly `(5/8)·W` — displaced from the image centre's
x-component `W/2` by `W/8` — for every positive scale; the projection is not
a no-op at offset `(0.5, 0.5)` and the result is not near the image centre. -/
theorem center_proj_offset_half_x_coord (W H c : ℕ) (s : ℝ) (hs : 0 < s)
    (hc : 1 ≤ c) :
    ((Projection.new (W, H) (c, c) ⟨1 / 2, 1 / 2⟩ idRot s).proj
        ⟨(c : ℝ) / 2, (c : ℝ) / 2⟩).x = 5 / 8 * ((W : ℕ) : ℝ) := by
  have hcR : (1 : ℝ) ≤ (c : ℝ) := by exact_mod_cast hc
  have hr : 0 < (Projection.new (W, H) (c, c) ⟨1 / 2, 1 / 2⟩ idRot s).radius := by
    show (0 : ℝ) < ((min c c : ℕ) : ℝ) / 10 * s
    rw [min_self]
    have h10 : (0 : ℝ) < (c : ℝ) / 10 := by linarith
    exact mul_pos h10 hs
  refine proj_x_of_diag_recenter _ _ ((c : ℝ) / 2) rfl hr (by linarith) ?_ ?_
  · show (c : ℝ) / 2 + ((1 : ℝ) / 2 - 1 / 2) * ((c : ℕ) : ℝ) = (c : ℝ) / 2
    ring
  · show (c : ℝ) / 2 + ((1 : ℝ) / 2 - 1 / 2) * ((c : ℕ) : ℝ) = (c : ℝ) / 2
    ring

/-- C8 witness: the amended theorem at a 40×30 source, 10×10 canvas, scale 2. -/
theorem center_proj_offset_half_x_coord_witness :
    (0 : ℝ) < 2 ∧
      ((Projection.new (40, 30) (10, 10) ⟨1 / 2, 1 / 2⟩ idRot 2).proj
          ⟨((10 : ℕ) : ℝ) / 2, ((10 : ℕ) : ℝ) / 2⟩).x = 5 / 8 * ((40 : ℕ) : ℝ) :=
  ⟨by norm_num, center_proj_offset_half_x_coord 40 30 10 2 (by norm_num) (by norm_num)⟩

lemma sphere_to_image_bounds (m : Projection) (v : Vec3)
    (hW : 0 ≤ m.image_size.x) (hH : 0 ≤ m.image_size.y) :
    0 ≤ (m.sphere_to_image v).x ∧ (m.sphere_to_image v).x ≤ m.image_size.x ∧
      0 ≤ (m.sphere_to_image v).y ∧ (m.sphere_to_image v).y ≤ m.image_size.y := by
  have hpi := Real.pi_pos
  have h2pi : (0 : ℝ) < 2 * Real.pi := by linarith
  obtain ⟨hA1, hA2⟩ := atan2_bounds (renormalizeFast v).x (renormalizeFast v).y
  have e1 : Real.pi / (2 * Real.pi) = 1 / 2 := by
    rw [div_eq_iff (ne_of_gt h2pi)]
    ring
  have e2 : -Real.pi / (2 * Real.pi) = -(1 / 2) := by
    rw [div_eq_iff (ne_of_gt h2pi)]
    ring
  have b1 : atan2 (renormalizeFast v).x (renormalizeFast v).y / (2 * Real.pi) ≤ 1 / 2 := by
    have := (div_le_div_iff_of_pos_right h2pi).mpr hA2
    linarith [e1]
  have b2 : -(1 / 2 : ℝ) ≤ atan2 (renormalizeFast v).x (renormalizeFast v).y / (2 * Real.pi) := by
    have := (div_le_div_iff_of_pos_right h2pi).mpr hA1
    linarith [e2]
  have hcol0 : 0 ≤ atan2 (renormalizeFast v).x (renormalizeFast v).y / (2 * Real.pi) + 1 / 2 := by
    linarith
  have hcol1 : atan2 (renormalizeFast v).x (renormalizeFast v).y / (2 * Real.pi) + 1 / 2 ≤ 1 := by
    linarith
  have hrow0 : 0 ≤ Real.arccos (renormalizeFast v).z / Real.pi :=
    div_nonneg (Real.arccos_nonneg _) hpi.le
  have hrow1 : Real.arccos (renormalizeFast v).z / Real.pi ≤ 1 :=
    (div_le_one hpi).mpr (Real.arccos_le_pi _)
  simp only [Projection.sphere_to_image]
  exact ⟨mul_nonneg hcol0 hW, mul_le_of_le_one_left hW hcol1,
    mul_nonneg hrow0 hH, mul_le_of_le_one_left hH hrow1⟩

/-- C10: for every model built by `Projection::new` with positive scale and a
canvas of positive dimensions (hence positive radius), and every canvas
coordinate, the projected source coordinate lies inside
`[0, image_width] × [0, image_height]`: the azimuth term `atan2/(2π) + 0.5`
lies in `[0, 1]` and the colatitude term `acos/π` lies in `[0, 1]`. -/
theorem proj_within_image_bounds (isz csz : ℕ × ℕ) (off : Vec2) (R : Rot) (s : ℝ)
    (p : Vec2) (_hs : 0 < s) (_h1 : 1 ≤ csz.1) (_h2 : 1 ≤ csz.2) :
    0 ≤ ((Projection.new isz csz off R s).proj p).x ∧
      ((Projection.new isz csz off R s).proj p).x ≤ (isz.1 : ℝ) ∧
      0 ≤ ((Projection.new isz csz off R s).proj p).y ∧
      ((Projection.new isz csz off R s).proj p).y ≤ (isz.2 : ℝ) := by
  have h := sphere_to_image_bounds (Projection.new isz csz off R s)
    (rotApply (Projection.new isz csz off R s).rotation
      ((Projection.new isz csz off R s).image_to_sphere
        ⟨p.x + ((Projection.new isz csz off R s).offset.x - 1 / 2) *
            (Projection.new isz csz off R s).proj_size.x,
          p.y + ((Projection.new isz csz off R s).offset.y - 1 / 2) *
            (Projection.new isz csz off R s).proj_size.y⟩))
    (Nat.cast_nonneg _) (Nat.cast_nonneg _)
  exact h

/-- C10 witness: a concrete model (8×6 source, 600×400 canvas, scale 3/2) and
the far-away canvas coordinate (−1000, 2000). -/
theorem proj_within_image_bounds_witness :
    (0 : ℝ) < 3 / 2 ∧
      (0 ≤ ((Projection.new (8, 6) (600, 400) ⟨0, 0⟩ idRot (3 / 2)).proj
          ⟨-1000, 2000⟩).x ∧
        ((Projection.new (8, 6) (600, 400) ⟨0, 0⟩ idRot (3 / 2)).proj
            ⟨-1000, 2000⟩).x ≤ ((8 : ℕ) : ℝ) ∧
        0 ≤ ((Projection.new (8, 6) (600, 400) ⟨0, 0⟩ idRot (3 / 2)).proj
            ⟨-1000, 2000⟩).y ∧
        ((Projection.new (8, 6) (600, 400) ⟨0, 0⟩ idRot (3 / 2)).proj
            ⟨-1000, 2000⟩).y ≤ ((6 : ℕ) : ℝ)) :=
  ⟨by norm_num,
    proj_within_image_bounds (8, 6) (600, 400) ⟨0, 0⟩ idRot (3 / 2) ⟨-1000, 2000⟩
      (by norm_num) (by norm_num) (by norm_num)⟩

end LittlePlanet
